import Mathlib

/-!
Verification of the FIFO lot-accounting core of the Kraken trade analyzer
(`src/Kraken.py`): pair normalization (`parse_pair`), the exact-decimal
helpers (`safe_div`), the per-pair ledger built by `aggregate_trades`
(buy/sell branches), the inventory shrink (`shrink_lots_fifo_to_target`)
and the derived averages from `build_rows_with_prices`.

Exact decimal arithmetic (Python `Decimal` under the module's
high-precision context) is modelled by the rationals `ℚ`: all additions,
subtractions and multiplications performed by the source are exact, and
the divisions exercised by the concrete claims are exact as well.
-/

namespace Kraken

/-- Source helper `safe_div(n, dnm)`: `(n / dnm) if dnm != 0 else Decimal("0")`. -/
def safe_div (n dnm : ℚ) : ℚ := if dnm ≠ 0 then n / dnm else 0

/-- Module-level configuration flag `INCLUDE_FEES_IN_COST = True`. -/
def INCLUDE_FEES_IN_COST : Bool := true

/-! ## Pair normalizer (`parse_pair`) -/

/-- Python `str.replace("XBT", "BTC")`: replace every non-overlapping occurrence,
scanning left to right. -/
def replaceXBT : List Char → List Char
  | 'X' :: 'B' :: 'T' :: rest => 'B' :: 'T' :: 'C' :: replaceXBT rest
  | c :: rest => c :: replaceXBT rest
  | [] => []

/-- Python `str.rfind("Z")`: index of the last occurrence of `'Z'`, if any. -/
def rfindZ : List Char → Option Nat
  | [] => none
  | c :: rest =>
    match rfindZ rest with
    | some j => some (j + 1)
    | none => if c = 'Z' then some 0 else none

/-- The body of `parse_pair` after normalization: the legacy `BASEZQUOTE`
split when it applies, otherwise the trailing-4-then-trailing-3 fallback,
otherwise `(p, "")`. -/
def parsePairCore (p : List Char) : List Char × List Char :=
  let zsplit : Option (List Char × List Char) :=
    if p.contains 'Z' ∧ 7 ≤ p.length then
      match rfindZ p with
      | some i =>
        let left := p.take i
        let right := p.drop (i + 1)
        if left ≠ [] ∧ right ≠ [] ∧ 3 ≤ right.length ∧ right.length ≤ 4 then
          some (if left.head? = some 'X' ∧ 2 ≤ left.length then left.drop 1 else left, right)
        else none
      | none => none
    else none
  match zsplit with
  | some r => r
  | none =>
    if 4 < p.length then (p.take (p.length - 4), p.drop (p.length - 4))
    else if 3 < p.length then (p.take (p.length - 3), p.drop (p.length - 3))
    else (p, [])

/-- Source function `parse_pair(pair)`: normalize (drop `'/'`, uppercase, map XBT to BTC),
then split into `(base, quote)`. -/
def parse_pair (pair : String) : String × String :=
  if pair = "" then ("", "")
  else
    let p := replaceXBT ((pair.toList.filter (fun c => c ≠ '/')).map Char.toUpper)
    let r := parsePairCore p
    (r.1.asString, r.2.asString)

/-! ## The per-pair ledger state of `aggregate_trades` -/

/-- One FIFO lot, the source's mutable triple `[remaining_vol, unit_cost, total_cost]`. -/
structure Lot where
  remaining_vol : ℚ
  unit_cost : ℚ
  total_cost : ℚ
deriving DecidableEq, Repr

/-- The per-`(base, quote)` aggregation record of `aggregate_trades`
(the accounting fields; the informational `last_ts` and `pair_name`
play no part in the accounting). -/
structure Ledger where
  buy_vol : ℚ
  buy_cost : ℚ
  sell_vol : ℚ
  sell_proceeds : ℚ
  fees : ℚ
  lots : List Lot
  realized_pnl : ℚ
deriving DecidableEq, Repr

/-- The `defaultdict` initial value: all accumulators zero, no lots. -/
def emptyLedger : Ledger :=
  { buy_vol := 0, buy_cost := 0, sell_vol := 0, sell_proceeds := 0
    fees := 0, lots := [], realized_pnl := 0 }

/-- The `typ == "buy"` branch of `aggregate_trades`: capitalize the fee into
cost (under `INCLUDE_FEES_IN_COST`), bump the accumulators, and append a new
lot `[vol, unit_cost, buy_cost]` with `unit_cost = safe_div(buy_cost, vol) if
vol > 0 else 0`.  `cost` is the record's cost field, which upstream parsing
defaults to `vol * price`. -/
def applyBuy (rec : Ledger) (vol cost fee : ℚ) : Ledger :=
  let buy_cost := cost + (if INCLUDE_FEES_IN_COST then fee else 0)
  let unit_cost := if vol > 0 then safe_div buy_cost vol else 0
  { rec with
    buy_vol := rec.buy_vol + vol
    buy_cost := rec.buy_cost + buy_cost
    fees := rec.fees + fee
    lots := rec.lots ++ [⟨vol, unit_cost, buy_cost⟩] }

/-- The FIFO matching loop of the `typ == "sell"` branch
(`while remaining > 0 and rec["lots"]`), returning the surviving lots and
the accumulated realized PnL.  Each pass takes
`use = min(lot_vol, remaining)` from the head lot; a fully consumed head is
popped and the loop continues, while a partially consumed head is written
back as `[lot_vol - use, lot_px, (lot_vol - use) * lot_px]` — in that case
`use = remaining`, so the  `while` condition fails on the next pass and the
loop stops there, which the second branch returns directly. -/
def fifoConsume (lots : List Lot) (remaining per_unit_proceeds : ℚ) : List Lot × ℚ :=
  match lots with
  | [] => ([], 0)
  | lot :: rest =>
    if remaining > 0 then
      let use := min lot.remaining_vol remaining
      let lot_cost_used := use * lot.unit_cost
      let portion_proceeds := use * per_unit_proceeds
      let lot_vol := lot.remaining_vol - use
      if lot_vol ≤ 0 then
        let r := fifoConsume rest (remaining - use) per_unit_proceeds
        (r.1, (portion_proceeds - lot_cost_used) + r.2)
      else
        (⟨lot_vol, lot.unit_cost, lot_vol * lot.unit_cost⟩ :: rest,
          portion_proceeds - lot_cost_used)
    else (lot :: rest, 0)

/-- The `typ == "sell"` branch of `aggregate_trades`: proceeds are net of the
fee (under `INCLUDE_FEES_IN_COST`), the accumulators are bumped,
`per_unit_proceeds = safe_div(proceeds, vol) if vol > 0 else 0`, and the sell
is FIFO-matched against the oldest lots, accumulating into `realized_pnl`. -/
def applySell (rec : Ledger) (vol cost fee : ℚ) : Ledger :=
  let proceeds := cost - (if INCLUDE_FEES_IN_COST then fee else 0)
  let per_unit_proceeds := if vol > 0 then safe_div proceeds vol else 0
  let r := fifoConsume rec.lots vol per_unit_proceeds
  { rec with
    sell_vol := rec.sell_vol + vol
    sell_proceeds := rec.sell_proceeds + proceeds
    fees := rec.fees + fee
    lots := r.1
    realized_pnl := rec.realized_pnl + r.2 }

/-- Source function `total_remaining(rec)`: `(remaining_volume, remaining_cost)` summed over
the FIFO lots. -/
def total_remaining (rec : Ledger) : ℚ × ℚ :=
  ((rec.lots.map Lot.remaining_vol).sum, (rec.lots.map Lot.total_cost).sum)

/-- The lot-reduction loop of `shrink_lots_fifo_to_target`
(`while to_reduce > 0 and rec["lots"]`): exactly the consumption step of the
sell loop, with no proceeds or realized-PnL bookkeeping. -/
def shrinkConsume (lots : List Lot) (to_reduce : ℚ) : List Lot :=
  match lots with
  | [] => []
  | lot :: rest =>
    if to_reduce > 0 then
      let use := min lot.remaining_vol to_reduce
      let lot_vol := lot.remaining_vol - use
      if lot_vol ≤ 0 then shrinkConsume rest (to_reduce - use)
      else ⟨lot_vol, lot.unit_cost, lot_vol * lot.unit_cost⟩ :: rest
    else lot :: rest

/-- Source function `shrink_lots_fifo_to_target(rec, target_vol)`: a no-op when
`target_vol >= current_vol`, otherwise remove `current_vol - target_vol`
units from the head of the lot queue. -/
def shrink_lots_fifo_to_target (rec : Ledger) (target_vol : ℚ) : Ledger :=
  let current_vol := (total_remaining rec).1
  if target_vol ≥ current_vol then rec
  else { rec with lots := shrinkConsume rec.lots (current_vol - target_vol) }

/-! ## Derived reporting figures (`build_rows_with_prices`) -/

/-- Reporting figure `avg_buy = safe_div(buy_cost, buy_vol) if buy_vol > 0 else 0`. -/
def avg_buy (rec : Ledger) : ℚ :=
  if rec.buy_vol > 0 then safe_div rec.buy_cost rec.buy_vol else 0

/-- Reporting figure `avg_sell = safe_div(sell_proceeds, sell_vol) if sell_vol > 0 else 0`. -/
def avg_sell (rec : Ledger) : ℚ :=
  if rec.sell_vol > 0 then safe_div rec.sell_proceeds rec.sell_vol else 0

/-- Reporting figure `remaining_avg_buy = safe_div(remaining_cost, remaining_vol) if
remaining_vol > 0 else 0`, with the sums taken over the lots as in
`build_rows_with_prices`. -/
def remaining_avg_buy (rec : Ledger) : ℚ :=
  let remaining_vol := (rec.lots.map Lot.remaining_vol).sum
  let remaining_cost := (rec.lots.map Lot.total_cost).sum
  if remaining_vol > 0 then safe_div remaining_cost remaining_vol else 0

/-! ## Operation sequences -/

/-- One accounting operation on a ledger: a `buy` or `sell` trade routed to it
by `aggregate_trades` (with `cost` already defaulted to `vol * price` when the
record carries no cost), or an interactive `shrink` to a target volume. -/
inductive Op where
  | buy (vol cost fee : ℚ)
  | sell (vol cost fee : ℚ)
  | shrink (target : ℚ)
deriving DecidableEq, Repr

/-- Apply one operation. -/
def applyOp (rec : Ledger) : Op → Ledger
  | .buy vol cost fee => applyBuy rec vol cost fee
  | .sell vol cost fee => applySell rec vol cost fee
  | .shrink target => shrink_lots_fifo_to_target rec target

/-- Apply a sequence of operations in order. -/
def applyOps (rec : Ledger) (ops : List Op) : Ledger := ops.foldl applyOp rec

/-! ## Helper lemmas -/

/-- A sell of volume `0` never enters the FIFO matching loop. -/
lemma fifoConsume_zero_remaining (lots : List Lot) (pu : ℚ) :
    fifoConsume lots 0 pu = (lots, 0) := by
  cases lots with
  | nil => rfl
  | cons lot rest => simp [fifoConsume]

/-- Shrinking touches only the lot queue: every accumulator of the ledger
record is preserved. -/
lemma shrink_preserves_accounting (rec : Ledger) (t : ℚ) :
    (shrink_lots_fifo_to_target rec t).realized_pnl = rec.realized_pnl
    ∧ (shrink_lots_fifo_to_target rec t).sell_vol = rec.sell_vol
    ∧ (shrink_lots_fifo_to_target rec t).sell_proceeds = rec.sell_proceeds
    ∧ (shrink_lots_fifo_to_target rec t).fees = rec.fees
    ∧ (shrink_lots_fifo_to_target rec t).buy_vol = rec.buy_vol
    ∧ (shrink_lots_fifo_to_target rec t).buy_cost = rec.buy_cost := by
  by_cases h : t ≥ (total_remaining rec).1 <;> simp [shrink_lots_fifo_to_target, h]

/-- The unit costs surviving a FIFO consumption are a tail of the original
unit costs: consumption pops from the head and never rewrites `unit_cost`. -/
lemma fifoConsume_unit_cost_suffix (lots : List Lot) (r pu : ℚ) :
    ((fifoConsume lots r pu).1.map Lot.unit_cost) <:+ (lots.map Lot.unit_cost) := by
  induction lots generalizing r with
  | nil => simp [fifoConsume]
  | cons lot rest ih =>
    simp only [fifoConsume]
    split
    · split
      · exact ((ih _).trans (List.suffix_cons _ _))
      · simp
    · simp

/-- The unit costs surviving a shrink are a tail of the original unit costs. -/
lemma shrinkConsume_unit_cost_suffix (lots : List Lot) (r : ℚ) :
    ((shrinkConsume lots r).map Lot.unit_cost) <:+ (lots.map Lot.unit_cost) := by
  induction lots generalizing r with
  | nil => simp [shrinkConsume]
  | cons lot rest ih =>
    simp only [shrinkConsume]
    split
    · split
      · exact ((ih _).trans (List.suffix_cons _ _))
      · simp
    · simp

/-- Unfolding: a non-positive sell volume never enters the matching loop. -/
lemma fifoConsume_not_pos (lots : List Lot) (r pu : ℚ) (hr : ¬ r > 0) :
    fifoConsume lots r pu = (lots, 0) := by
  cases lots <;> simp [fifoConsume, hr]

/-- Unfolding: a head lot no larger than the volume still to match is fully
consumed and popped, and the loop continues on the tail. -/
lemma fifoConsume_cons_full (lot : Lot) (rest : List Lot) (r pu : ℚ)
    (hr : 0 < r) (hle : lot.remaining_vol ≤ r) :
    fifoConsume (lot :: rest) r pu
      = ((fifoConsume rest (r - lot.remaining_vol) pu).1,
          (lot.remaining_vol * pu - lot.remaining_vol * lot.unit_cost)
            + (fifoConsume rest (r - lot.remaining_vol) pu).2) := by
  simp only [fifoConsume]
  rw [if_pos hr, min_eq_left hle]
  norm_num

/-- Unfolding: a head lot strictly larger than the volume still to match is
split in place and the loop stops. -/
lemma fifoConsume_cons_split (lot : Lot) (rest : List Lot) (r pu : ℚ)
    (hr : 0 < r) (hlt : r < lot.remaining_vol) :
    fifoConsume (lot :: rest) r pu
      = (⟨lot.remaining_vol - r, lot.unit_cost, (lot.remaining_vol - r) * lot.unit_cost⟩ :: rest,
          r * pu - r * lot.unit_cost) := by
  simp only [fifoConsume]
  rw [if_pos hr, min_eq_right (le_of_lt hlt)]
  rw [if_neg (by linarith : ¬ lot.remaining_vol - r ≤ 0)]

/-- Unfolding: a non-positive reduction never enters the shrink loop. -/
lemma shrinkConsume_not_pos (lots : List Lot) (r : ℚ) (hr : ¬ r > 0) :
    shrinkConsume lots r = lots := by
  cases lots <;> simp [shrinkConsume, hr]

/-- Unfolding: the shrink loop pops a head lot no larger than the reduction. -/
lemma shrinkConsume_cons_full (lot : Lot) (rest : List Lot) (r : ℚ)
    (hr : 0 < r) (hle : lot.remaining_vol ≤ r) :
    shrinkConsume (lot :: rest) r = shrinkConsume rest (r - lot.remaining_vol) := by
  simp only [shrinkConsume]
  rw [if_pos hr, min_eq_left hle]
  norm_num

/-- Unfolding: the shrink loop splits a head lot strictly larger than the
reduction and stops. -/
lemma shrinkConsume_cons_split (lot : Lot) (rest : List Lot) (r : ℚ)
    (hr : 0 < r) (hlt : r < lot.remaining_vol) :
    shrinkConsume (lot :: rest) r
      = ⟨lot.remaining_vol - r, lot.unit_cost, (lot.remaining_vol - r) * lot.unit_cost⟩ :: rest := by
  simp only [shrinkConsume]
  rw [if_pos hr, min_eq_right (le_of_lt hlt)]
  rw [if_neg (by linarith : ¬ lot.remaining_vol - r ≤ 0)]

/-- A queue of non-negative lots has non-negative total remaining volume. -/
lemma lots_sum_nonneg (lots : List Lot) (hn : ∀ l ∈ lots, 0 ≤ l.remaining_vol) :
    0 ≤ (lots.map Lot.remaining_vol).sum := by
  apply List.sum_nonneg
  intro x hx
  obtain ⟨l, hl, rfl⟩ := List.mem_map.mp hx
  exact hn l hl

/-- Overselling a queue of non-negative lots consumes every lot and realizes
exactly the matched volume times the per-unit proceeds minus the FIFO cost of
the matched lots. -/
lemma fifoConsume_oversell (lots : List Lot) (r pu : ℚ)
    (hn : ∀ l ∈ lots, 0 ≤ l.remaining_vol)
    (hlt : (lots.map Lot.remaining_vol).sum < r) :
    fifoConsume lots r pu
      = ([], (lots.map Lot.remaining_vol).sum * pu
          - (lots.map (fun l => l.remaining_vol * l.unit_cost)).sum) := by
  induction lots generalizing r with
  | nil => simp [fifoConsume]
  | cons lot rest ih =>
    have hv : 0 ≤ lot.remaining_vol := hn lot (List.mem_cons_self _ _)
    have hrest : ∀ l ∈ rest, 0 ≤ l.remaining_vol := fun l hl => hn l (List.mem_cons_of_mem _ hl)
    have hs : 0 ≤ (rest.map Lot.remaining_vol).sum := lots_sum_nonneg rest hrest
    have hsum : (List.map Lot.remaining_vol (lot :: rest)).sum
        = lot.remaining_vol + (rest.map Lot.remaining_vol).sum := by simp
    rw [hsum] at hlt
    have hr : 0 < r := by linarith
    have hle : lot.remaining_vol ≤ r := by linarith
    rw [fifoConsume_cons_full lot rest r pu hr hle,
      ih (r - lot.remaining_vol) hrest (by linarith)]
    simp only [Prod.mk.injEq, List.map_cons, List.sum_cons]
    exact ⟨trivial, by ring⟩

/-! ## The claims -/

/-- C1: applying, in order, a buy of volume 2 at price 10 (cost 20), a buy of
volume 3 at price 20 (cost 60) and a sell of volume 3 with proceeds 90 and
fee 0 accumulates realized PnL `(2*(30-10)) + (1*(30-20)) = 50`, and the
surviving queue is exactly the second lot split down to 2 units at unit cost
20: the sell consumed all of the oldest lot first and split the next-oldest. -/
theorem C1_fifo_consumes_oldest_first :
    (applyOps emptyLedger [Op.buy 2 20 0, Op.buy 3 60 0, Op.sell 3 90 0]).realized_pnl = 50
    ∧ (applyOps emptyLedger [Op.buy 2 20 0, Op.buy 3 60 0, Op.sell 3 90 0]).lots
        = [⟨2, 20, 40⟩] := by
  norm_num [applyOps, applyOp, applyBuy, applySell, fifoConsume, emptyLedger, safe_div,
    INCLUDE_FEES_IN_COST]

/-- C2: the trade sequence `[buy 1.0 @ 9000 fee 9, sell 0.4 @ 10000 fee 4]`
(costs defaulted to `vol * price`), with fees capitalized into buy cost and
netted from proceeds, yields average buy price 9009, average sell price 9990,
remaining volume 0.6, average cost of the remaining inventory 9009, and
realized PnL `0.4 * (9990 - 9009) = 392.4`. -/
theorem C2_end_to_end_scenario :
    avg_buy (applyOps emptyLedger [Op.buy 1 9000 9, Op.sell (2/5) 4000 4]) = 9009
    ∧ avg_sell (applyOps emptyLedger [Op.buy 1 9000 9, Op.sell (2/5) 4000 4]) = 9990
    ∧ (total_remaining (applyOps emptyLedger [Op.buy 1 9000 9, Op.sell (2/5) 4000 4])).1 = 3/5
    ∧ remaining_avg_buy (applyOps emptyLedger [Op.buy 1 9000 9, Op.sell (2/5) 4000 4]) = 9009
    ∧ (applyOps emptyLedger [Op.buy 1 9000 9, Op.sell (2/5) 4000 4]).realized_pnl = 3924/10 := by
  norm_num [applyOps, applyOp, applyBuy, applySell, fifoConsume, emptyLedger, safe_div,
    INCLUDE_FEES_IN_COST, avg_buy, avg_sell, remaining_avg_buy, total_remaining]

/-- C5, amended: what `parse_pair` returns on the four identifiers of the
claim.  The first three match the claim; `"ETHUSD"` does not: the fallback
tries a trailing-4 split before trailing-3 (first length leaving a non-empty
base, per the normalizer's fallback rule), so a 6-character identifier is
split 2/4 and the code returns `("ET", "HUSD")` rather than the claimed
`("ETH", "USD")`. -/
theorem C5_parse_pair_eval :
    parse_pair "XXBTZUSD" = ("BTC", "USD")
    ∧ parse_pair "XETHZUSD" = ("ETH", "USD")
    ∧ parse_pair "ETH/USDT" = ("ETH", "USDT")
    ∧ parse_pair "ETHUSD" = ("ET", "HUSD") := by
  decide

/-- C5, counterexample: the claim as stated fails on the code at the
concrete input `"ETHUSD"`. -/
theorem C5_parse_pair_counterexample : parse_pair "ETHUSD" ≠ ("ETH", "USD") := by
  decide

/-- C6: a finite sequence of shrink-to-target calls with non-negative targets
leaves `realized_pnl`, `sell_volume`, `sell_proceeds` and `fees_total`
exactly as they were before the sequence. -/
theorem C6_shrink_sequence_frame (rec : Ledger) (targets : List ℚ)
    (h : ∀ t ∈ targets, 0 ≤ t) :
    (targets.foldl shrink_lots_fifo_to_target rec).realized_pnl = rec.realized_pnl
    ∧ (targets.foldl shrink_lots_fifo_to_target rec).sell_vol = rec.sell_vol
    ∧ (targets.foldl shrink_lots_fifo_to_target rec).sell_proceeds = rec.sell_proceeds
    ∧ (targets.foldl shrink_lots_fifo_to_target rec).fees = rec.fees := by
  induction targets generalizing rec with
  | nil => simp
  | cons t ts ih =>
    have hstep := shrink_preserves_accounting rec t
    have hrest := ih (shrink_lots_fifo_to_target rec t)
      (fun x hx => h x (List.mem_cons_of_mem _ hx))
    simp only [List.foldl_cons]
    exact ⟨hrest.1.trans hstep.1, hrest.2.1.trans hstep.2.1,
      hrest.2.2.1.trans hstep.2.2.1, hrest.2.2.2.trans hstep.2.2.2.1⟩

/-- Witness for C6 at a concrete ledger and target sequence. -/
theorem C6_shrink_sequence_frame_witness :
    (∀ t ∈ ([0, 2] : List ℚ), 0 ≤ t)
    ∧ (([0, 2] : List ℚ).foldl shrink_lots_fifo_to_target
          (Ledger.mk 5 50 1 11 3 [⟨4, 10, 40⟩] 7)).realized_pnl
        = (Ledger.mk 5 50 1 11 3 [⟨4, 10, 40⟩] 7).realized_pnl
    ∧ (([0, 2] : List ℚ).foldl shrink_lots_fifo_to_target
          (Ledger.mk 5 50 1 11 3 [⟨4, 10, 40⟩] 7)).sell_vol
        = (Ledger.mk 5 50 1 11 3 [⟨4, 10, 40⟩] 7).sell_vol
    ∧ (([0, 2] : List ℚ).foldl shrink_lots_fifo_to_target
          (Ledger.mk 5 50 1 11 3 [⟨4, 10, 40⟩] 7)).sell_proceeds
        = (Ledger.mk 5 50 1 11 3 [⟨4, 10, 40⟩] 7).sell_proceeds
    ∧ (([0, 2] : List ℚ).foldl shrink_lots_fifo_to_target
          (Ledger.mk 5 50 1 11 3 [⟨4, 10, 40⟩] 7)).fees
        = (Ledger.mk 5 50 1 11 3 [⟨4, 10, 40⟩] 7).fees :=
  ⟨by norm_num,
    C6_shrink_sequence_frame (Ledger.mk 5 50 1 11 3 [⟨4, 10, 40⟩] 7) [0, 2] (by norm_num)⟩

/-- C7: a shrink whose target is at least the current remaining volume is a
no-op on the whole ledger record, the lot queue included. -/
theorem C7_noop_shrink (rec : Ledger) (v : ℚ) (h : (total_remaining rec).1 ≤ v) :
    shrink_lots_fifo_to_target rec v = rec := by
  have hv : v ≥ (total_remaining rec).1 := h
  simp [shrink_lots_fifo_to_target, hv]

/-- Witness for C7 at a concrete ledger holding one lot of 1 unit. -/
theorem C7_noop_shrink_witness :
    (total_remaining (Ledger.mk 1 10 0 0 0 [⟨1, 10, 10⟩] 0)).1 ≤ 5
    ∧ shrink_lots_fifo_to_target (Ledger.mk 1 10 0 0 0 [⟨1, 10, 10⟩] 0) 5
        = Ledger.mk 1 10 0 0 0 [⟨1, 10, 10⟩] 0 :=
  ⟨by norm_num [total_remaining],
    C7_noop_shrink (Ledger.mk 1 10 0 0 0 [⟨1, 10, 10⟩] 0) 5 (by norm_num [total_remaining])⟩

/-- C9: `safe_div` with a zero denominator is 0 for every numerator; a buy of
volume 0 appends a lot with unit cost 0 (and total cost `cost + fee`), a sell
of volume 0 consumes no lots and adds nothing to realized PnL, and each
reported average is 0 when its volume denominator is 0. -/
theorem C9_zero_volume_safety (rec : Ledger) (n cost fee : ℚ) :
    safe_div n 0 = 0
    ∧ (applyBuy rec 0 cost fee).lots = rec.lots ++ [⟨0, 0, cost + fee⟩]
    ∧ (applySell rec 0 cost fee).lots = rec.lots
    ∧ (applySell rec 0 cost fee).realized_pnl = rec.realized_pnl
    ∧ (rec.buy_vol = 0 → avg_buy rec = 0)
    ∧ (rec.sell_vol = 0 → avg_sell rec = 0)
    ∧ ((rec.lots.map Lot.remaining_vol).sum = 0 → remaining_avg_buy rec = 0) := by
  refine ⟨by simp [safe_div], ?_, ?_, ?_, ?_, ?_, ?_⟩
  · simp [applyBuy, INCLUDE_FEES_IN_COST]
  · simp [applySell, fifoConsume_zero_remaining]
  · simp [applySell, fifoConsume_zero_remaining]
  · intro h; simp [avg_buy, h]
  · intro h; simp [avg_sell, h]
  · intro h; simp [remaining_avg_buy, h]

/-- Witness for C9 at the empty ledger, numerator 5, cost 7, fee 2. -/
theorem C9_zero_volume_safety_witness :
    safe_div 5 0 = 0
    ∧ (applyBuy emptyLedger 0 7 2).lots = emptyLedger.lots ++ [⟨0, 0, 7 + 2⟩]
    ∧ (applySell emptyLedger 0 7 2).lots = emptyLedger.lots
    ∧ (applySell emptyLedger 0 7 2).realized_pnl = emptyLedger.realized_pnl
    ∧ avg_buy emptyLedger = 0
    ∧ avg_sell emptyLedger = 0
    ∧ remaining_avg_buy emptyLedger = 0 := by
  obtain ⟨h1, h2, h3, h4, h5, h6, h7⟩ := C9_zero_volume_safety emptyLedger 5 7 2
  exact ⟨h1, h2, h3, h4, h5 (by norm_num [emptyLedger]), h6 (by norm_num [emptyLedger]),
    h7 (by norm_num [emptyLedger])⟩

/-- C10: no later operation rewrites a lot's recorded unit cost.  The unit
costs after a sell or a shrink are a tail of the unit costs before it (lots
are only popped from the head, and a split head keeps its unit cost), and a
buy only appends its newly computed unit cost at the tail. -/
theorem C10_unit_cost_never_modified (rec : Ledger) (vol cost fee target : ℚ) :
    ((applySell rec vol cost fee).lots.map Lot.unit_cost) <:+ (rec.lots.map Lot.unit_cost)
    ∧ ((shrink_lots_fifo_to_target rec target).lots.map Lot.unit_cost)
        <:+ (rec.lots.map Lot.unit_cost)
    ∧ (applyBuy rec vol cost fee).lots.map Lot.unit_cost
        = rec.lots.map Lot.unit_cost
          ++ [if vol > 0 then safe_div (cost + (if INCLUDE_FEES_IN_COST then fee else 0)) vol
              else 0] := by
  refine ⟨?_, ?_, ?_⟩
  · simpa [applySell] using fifoConsume_unit_cost_suffix rec.lots vol
      (if vol > 0 then safe_div (cost - (if INCLUDE_FEES_IN_COST then fee else 0)) vol else 0)
  · by_cases h : target ≥ (total_remaining rec).1
    · simp [shrink_lots_fifo_to_target, h]
    · simpa [shrink_lots_fifo_to_target, h] using
        shrinkConsume_unit_cost_suffix rec.lots ((total_remaining rec).1 - target)
  · simp [applyBuy]

/-- C8: selling strictly more volume than the lots hold raises no error,
empties the lot queue, and adds to realized PnL only the contribution of the
volume actually matched: the matched (total remaining) volume times the
per-unit proceeds, minus the FIFO cost of the matched lots. -/
theorem C8_oversell_saturation (rec : Ledger) (vol cost fee : ℚ)
    (hn : ∀ l ∈ rec.lots, 0 ≤ l.remaining_vol)
    (hover : (total_remaining rec).1 < vol) :
    (applySell rec vol cost fee).lots = []
    ∧ (applySell rec vol cost fee).realized_pnl
        = rec.realized_pnl
          + ((total_remaining rec).1 * safe_div (cost - fee) vol
            - (rec.lots.map (fun l => l.remaining_vol * l.unit_cost)).sum) := by
  have hover' : (rec.lots.map Lot.remaining_vol).sum < vol := by
    simpa [total_remaining] using hover
  have h0 : 0 ≤ (rec.lots.map Lot.remaining_vol).sum := lots_sum_nonneg rec.lots hn
  have hv : 0 < vol := lt_of_le_of_lt h0 hover'
  have hc := fifoConsume_oversell rec.lots vol
    (if vol > 0 then safe_div (cost - (if INCLUDE_FEES_IN_COST then fee else 0)) vol else 0)
    hn hover'
  simp only [INCLUDE_FEES_IN_COST, if_true, gt_iff_lt, hv] at hc
  constructor
  · simp [applySell, hc, hv, INCLUDE_FEES_IN_COST]
  · simp [applySell, hc, hv, INCLUDE_FEES_IN_COST, total_remaining]

/-- Witness for C8: one lot of 1 unit at unit cost 10, sold as 2 units with
proceeds 60, realizes `1 * 30 - 10 = 20` and empties the queue. -/
theorem C8_oversell_saturation_witness :
    (∀ l ∈ (Ledger.mk 1 10 0 0 0 [⟨1, 10, 10⟩] 0).lots, 0 ≤ l.remaining_vol)
    ∧ (total_remaining (Ledger.mk 1 10 0 0 0 [⟨1, 10, 10⟩] 0)).1 < 2
    ∧ (applySell (Ledger.mk 1 10 0 0 0 [⟨1, 10, 10⟩] 0) 2 60 0).lots = []
    ∧ (applySell (Ledger.mk 1 10 0 0 0 [⟨1, 10, 10⟩] 0) 2 60 0).realized_pnl
        = (Ledger.mk 1 10 0 0 0 [⟨1, 10, 10⟩] 0).realized_pnl
          + ((total_remaining (Ledger.mk 1 10 0 0 0 [⟨1, 10, 10⟩] 0)).1 * safe_div (60 - 0) 2
            - ((Ledger.mk 1 10 0 0 0 [⟨1, 10, 10⟩] 0).lots.map
                (fun l => l.remaining_vol * l.unit_cost)).sum) := by
  have h1 : ∀ l ∈ (Ledger.mk 1 10 0 0 0 [⟨1, 10, 10⟩] 0).lots, 0 ≤ l.remaining_vol := by
    intro l hl
    simp only [List.mem_singleton] at hl
    subst hl
    norm_num
  have h2 : (total_remaining (Ledger.mk 1 10 0 0 0 [⟨1, 10, 10⟩] 0)).1 < 2 := by
    norm_num [total_remaining]
  exact ⟨h1, h2, (C8_oversell_saturation _ 2 60 0 h1 h2).1,
    (C8_oversell_saturation _ 2 60 0 h1 h2).2⟩

/-! ## The lot invariant (C3) -/

/-- Invariant of claim C3: every lot in the queue satisfies
`total_cost == remaining_volume * unit_cost`. -/
def LotsInvariant (lots : List Lot) : Prop :=
  ∀ lot ∈ lots, lot.total_cost = lot.remaining_vol * lot.unit_cost

/-- Restriction on buy operations under which the lot invariant holds at lot
creation: positive volume, or zero fee-inclusive cost.  (A zero-volume buy
with non-zero `cost + fee` creates a lot violating the invariant.) -/
def BuyOpsOK (ops : List Op) : Prop :=
  ∀ op ∈ ops,
    match op with
    | Op.buy vol cost fee => 0 < vol ∨ cost + fee = 0
    | _ => True

/-- The FIFO matching loop preserves the lot invariant: it pops lots or
rewrites a split head as `[v, px, v * px]`. -/
lemma fifoConsume_preserves_invariant (lots : List Lot) :
    ∀ (r pu : ℚ), LotsInvariant lots → LotsInvariant (fifoConsume lots r pu).1 := by
  induction lots with
  | nil =>
    intro r pu _ l hl
    simp [fifoConsume] at hl
  | cons lot rest ih =>
    intro r pu h
    have hrest : LotsInvariant rest := fun l hl => h l (List.mem_cons_of_mem _ hl)
    rcases le_or_lt r 0 with hr | hr
    · rw [fifoConsume_not_pos _ _ _ (not_lt.mpr hr)]
      exact h
    · rcases le_or_lt lot.remaining_vol r with hle | hlt
      · rw [fifoConsume_cons_full lot rest r pu hr hle]
        exact ih (r - lot.remaining_vol) pu hrest
      · rw [fifoConsume_cons_split lot rest r pu hr hlt]
        intro l hl
        rcases List.mem_cons.mp hl with rfl | hl
        · rfl
        · exact hrest l hl

/-- The shrink loop preserves the lot invariant for the same reason. -/
lemma shrinkConsume_preserves_invariant (lots : List Lot) :
    ∀ (r : ℚ), LotsInvariant lots → LotsInvariant (shrinkConsume lots r) := by
  induction lots with
  | nil =>
    intro r _ l hl
    simp [shrinkConsume] at hl
  | cons lot rest ih =>
    intro r h
    have hrest : LotsInvariant rest := fun l hl => h l (List.mem_cons_of_mem _ hl)
    rcases le_or_lt r 0 with hr | hr
    · rw [shrinkConsume_not_pos _ _ (not_lt.mpr hr)]
      exact h
    · rcases le_or_lt lot.remaining_vol r with hle | hlt
      · rw [shrinkConsume_cons_full lot rest r hr hle]
        exact ih (r - lot.remaining_vol) hrest
      · rw [shrinkConsume_cons_split lot rest r hr hlt]
        intro l hl
        rcases List.mem_cons.mp hl with rfl | hl
        · rfl
        · exact hrest l hl

/-- A buy with positive volume or zero fee-inclusive cost appends a lot that
satisfies the invariant. -/
lemma applyBuy_preserves_invariant (rec : Ledger) (vol cost fee : ℚ)
    (h : LotsInvariant rec.lots) (hok : 0 < vol ∨ cost + fee = 0) :
    LotsInvariant (applyBuy rec vol cost fee).lots := by
  intro l hl
  simp only [applyBuy, List.mem_append] at hl
  rcases hl with hl | hl
  · exact h l hl
  · rw [List.mem_singleton] at hl
    subst hl
    rcases hok with hv | hcf
    · have hvne : vol ≠ 0 := ne_of_gt hv
      simp [safe_div, INCLUDE_FEES_IN_COST, hv, hvne]
      field_simp
    · simp [safe_div, INCLUDE_FEES_IN_COST, hcf]

/-- Every single operation preserves the lot invariant, provided a buy has
positive volume or zero fee-inclusive cost. -/
lemma applyOp_preserves_invariant (rec : Ledger) (op : Op)
    (h : LotsInvariant rec.lots)
    (hok : match op with
           | Op.buy vol cost fee => 0 < vol ∨ cost + fee = 0
           | _ => True) :
    LotsInvariant (applyOp rec op).lots := by
  cases op with
  | buy vol cost fee => exact applyBuy_preserves_invariant rec vol cost fee h hok
  | sell vol cost fee =>
    simp only [applyOp, applySell]
    exact fifoConsume_preserves_invariant rec.lots vol _ h
  | shrink target =>
    by_cases ht : target ≥ (total_remaining rec).1
    · simpa [applyOp, shrink_lots_fifo_to_target, ht] using h
    · simp only [applyOp, shrink_lots_fifo_to_target]
      rw [if_neg ht]
      exact shrinkConsume_preserves_invariant rec.lots _ h

/-- C3, counterexample: the claim as stated fails on the code.  A buy of
volume 0 with cost 0 and fee 9 (all inputs within the spec's preconditions)
creates the lot `[0, 0, 9]`, whose `total_cost = 9` differs from
`remaining_volume * unit_cost = 0`. -/
theorem C3_lot_invariant_counterexample :
    ¬ LotsInvariant (applyBuy emptyLedger 0 0 9).lots := by
  intro h
  have hl : (⟨0, 0, 9⟩ : Lot) ∈ (applyBuy emptyLedger 0 0 9).lots := by
    norm_num [applyBuy, emptyLedger, INCLUDE_FEES_IN_COST]
  have h9 := h _ hl
  norm_num at h9

/-- C3, amended: for every ledger whose lots satisfy the invariant and every
operation sequence whose buys each have positive volume or zero fee-inclusive
cost, every lot satisfies `total_cost = remaining_volume * unit_cost` after
the sequence (hence at every point of every lot's lifetime, the state after
any prefix being an instance). -/
theorem C3_lot_invariant_amended (ops : List Op) : ∀ (rec : Ledger),
    LotsInvariant rec.lots → BuyOpsOK ops → LotsInvariant (applyOps rec ops).lots := by
  induction ops with
  | nil => intro rec h _; exact h
  | cons op ops ih =>
    intro rec h hops
    have hop := hops op (List.mem_cons_self _ _)
    have htail : BuyOpsOK ops := fun o ho => hops o (List.mem_cons_of_mem _ ho)
    exact ih (applyOp rec op) (applyOp_preserves_invariant rec op h hop) htail

/-- Witness for C3 (amended) on a concrete buy-then-sell history. -/
theorem C3_lot_invariant_amended_witness :
    LotsInvariant emptyLedger.lots
    ∧ BuyOpsOK [Op.buy 2 20 0, Op.sell 1 30 0]
    ∧ LotsInvariant (applyOps emptyLedger [Op.buy 2 20 0, Op.sell 1 30 0]).lots := by
  have h1 : LotsInvariant emptyLedger.lots := by
    intro l hl
    simp [emptyLedger] at hl
  have h2 : BuyOpsOK [Op.buy 2 20 0, Op.sell 1 30 0] := by
    intro op hop
    rcases List.mem_cons.mp hop with rfl | hop
    · left
      norm_num
    · rcases List.mem_cons.mp hop with rfl | hop
      · trivial
      · simp at hop
  exact ⟨h1, h2, C3_lot_invariant_amended [Op.buy 2 20 0, Op.sell 1 30 0] emptyLedger h1 h2⟩

/-! ## Volume conservation (C4) -/

/-- Volume a single operation removes through the shrink path: zero for
trades and for a no-op shrink, `current_remaining - target` otherwise. -/
def shrunkOf (rec : Ledger) : Op → ℚ
  | Op.shrink target =>
      if target ≥ (total_remaining rec).1 then 0 else (total_remaining rec).1 - target
  | _ => 0

/-- Total volume removed by the shrink operations of a sequence, measured
along the trace. -/
def totalShrunk : Ledger → List Op → ℚ
  | _, [] => 0
  | rec, op :: ops => shrunkOf rec op + totalShrunk (applyOp rec op) ops

/-- Trace predicate: volumes and targets are non-negative and no sell asks
for more volume than the lots hold at the moment it is applied. -/
def OpsOK : Ledger → List Op → Prop
  | _, [] => True
  | rec, op :: ops =>
      (match op with
       | Op.buy vol _ _ => 0 ≤ vol
       | Op.sell vol _ _ => 0 ≤ vol ∧ vol ≤ (total_remaining rec).1
       | Op.shrink target => 0 ≤ target)
      ∧ OpsOK (applyOp rec op) ops

/-- FIFO consumption removes exactly `min remaining total` volume from a
queue of non-negative lots. -/
lemma fifoConsume_sum (lots : List Lot) :
    ∀ (r pu : ℚ), 0 ≤ r → (∀ l ∈ lots, 0 ≤ l.remaining_vol) →
      ((fifoConsume lots r pu).1.map Lot.remaining_vol).sum
        = (lots.map Lot.remaining_vol).sum - min r (lots.map Lot.remaining_vol).sum := by
  induction lots with
  | nil =>
    intro r pu hr _
    simp [fifoConsume, min_eq_right hr]
  | cons lot rest ih =>
    intro r pu hr hn
    have hv : 0 ≤ lot.remaining_vol := hn lot (List.mem_cons_self _ _)
    have hrest : ∀ l ∈ rest, 0 ≤ l.remaining_vol := fun l hl => hn l (List.mem_cons_of_mem _ hl)
    have hs : 0 ≤ (rest.map Lot.remaining_vol).sum := lots_sum_nonneg rest hrest
    rcases eq_or_lt_of_le hr with rfl | hr0
    · rw [fifoConsume_not_pos _ _ _ (lt_irrefl 0)]
      rw [min_eq_left (by simp; linarith)]
      ring
    · rcases le_or_lt lot.remaining_vol r with hle | hlt
      · have h1 : (fifoConsume (lot :: rest) r pu).1
            = (fifoConsume rest (r - lot.remaining_vol) pu).1 := by
          rw [fifoConsume_cons_full lot rest r pu hr0 hle]
        rw [h1, ih (r - lot.remaining_vol) pu (by linarith) hrest]
        simp only [List.map_cons, List.sum_cons]
        rcases le_total (r - lot.remaining_vol) ((rest.map Lot.remaining_vol).sum) with h2 | h2
        · rw [min_eq_left h2, min_eq_left (by linarith)]
          ring
        · rw [min_eq_right h2, min_eq_right (by linarith)]
          ring
      · have h1 : (fifoConsume (lot :: rest) r pu).1
            = (⟨lot.remaining_vol - r, lot.unit_cost,
                 (lot.remaining_vol - r) * lot.unit_cost⟩ : Lot) :: rest := by
          rw [fifoConsume_cons_split lot rest r pu hr0 hlt]
        rw [h1]
        simp only [List.map_cons, List.sum_cons]
        rw [min_eq_left (by linarith)]
        ring

/-- FIFO consumption keeps every surviving lot volume non-negative. -/
lemma fifoConsume_nonneg (lots : List Lot) :
    ∀ (r pu : ℚ), (∀ l ∈ lots, 0 ≤ l.remaining_vol) →
      ∀ l ∈ (fifoConsume lots r pu).1, 0 ≤ l.remaining_vol := by
  induction lots with
  | nil =>
    intro r pu _ l hl
    simp [fifoConsume] at hl
  | cons lot rest ih =>
    intro r pu hn
    have hrest : ∀ l ∈ rest, 0 ≤ l.remaining_vol := fun l hl => hn l (List.mem_cons_of_mem _ hl)
    rcases le_or_lt r 0 with hr | hr
    · rw [fifoConsume_not_pos _ _ _ (not_lt.mpr hr)]
      exact hn
    · rcases le_or_lt lot.remaining_vol r with hle | hlt
      · have h1 : (fifoConsume (lot :: rest) r pu).1
            = (fifoConsume rest (r - lot.remaining_vol) pu).1 := by
          rw [fifoConsume_cons_full lot rest r pu hr hle]
        rw [h1]
        exact ih _ pu hrest
      · have h1 : (fifoConsume (lot :: rest) r pu).1
            = (⟨lot.remaining_vol - r, lot.unit_cost,
                 (lot.remaining_vol - r) * lot.unit_cost⟩ : Lot) :: rest := by
          rw [fifoConsume_cons_split lot rest r pu hr hlt]
        rw [h1]
        intro l hl
        rcases List.mem_cons.mp hl with rfl | hl
        · show 0 ≤ lot.remaining_vol - r
          linarith
        · exact hrest l hl

/-- The shrink loop removes exactly `min to_reduce total` volume from a
queue of non-negative lots. -/
lemma shrinkConsume_sum (lots : List Lot) :
    ∀ (r : ℚ), 0 ≤ r → (∀ l ∈ lots, 0 ≤ l.remaining_vol) →
      ((shrinkConsume lots r).map Lot.remaining_vol).sum
        = (lots.map Lot.remaining_vol).sum - min r (lots.map Lot.remaining_vol).sum := by
  induction lots with
  | nil =>
    intro r hr _
    simp [shrinkConsume, min_eq_right hr]
  | cons lot rest ih =>
    intro r hr hn
    have hv : 0 ≤ lot.remaining_vol := hn lot (List.mem_cons_self _ _)
    have hrest : ∀ l ∈ rest, 0 ≤ l.remaining_vol := fun l hl => hn l (List.mem_cons_of_mem _ hl)
    have hs : 0 ≤ (rest.map Lot.remaining_vol).sum := lots_sum_nonneg rest hrest
    rcases eq_or_lt_of_le hr with rfl | hr0
    · rw [shrinkConsume_not_pos _ _ (lt_irrefl 0)]
      rw [min_eq_left (by simp; linarith)]
      ring
    · rcases le_or_lt lot.remaining_vol r with hle | hlt
      · rw [shrinkConsume_cons_full lot rest r hr0 hle,
          ih (r - lot.remaining_vol) (by linarith) hrest]
        simp only [List.map_cons, List.sum_cons]
        rcases le_total (r - lot.remaining_vol) ((rest.map Lot.remaining_vol).sum) with h2 | h2
        · rw [min_eq_left h2, min_eq_left (by linarith)]
          ring
        · rw [min_eq_right h2, min_eq_right (by linarith)]
          ring
      · rw [shrinkConsume_cons_split lot rest r hr0 hlt]
        simp only [List.map_cons, List.sum_cons]
        rw [min_eq_left (by linarith)]
        ring

/-- The shrink loop keeps every surviving lot volume non-negative. -/
lemma shrinkConsume_nonneg (lots : List Lot) :
    ∀ (r : ℚ), (∀ l ∈ lots, 0 ≤ l.remaining_vol) →
      ∀ l ∈ shrinkConsume lots r, 0 ≤ l.remaining_vol := by
  induction lots with
  | nil =>
    intro r _ l hl
    simp [shrinkConsume] at hl
  | cons lot rest ih =>
    intro r hn
    have hrest : ∀ l ∈ rest, 0 ≤ l.remaining_vol := fun l hl => hn l (List.mem_cons_of_mem _ hl)
    rcases le_or_lt r 0 with hr | hr
    · rw [shrinkConsume_not_pos _ _ (not_lt.mpr hr)]
      exact hn
    · rcases le_or_lt lot.remaining_vol r with hle | hlt
      · rw [shrinkConsume_cons_full lot rest r hr hle]
        exact ih _ hrest
      · rw [shrinkConsume_cons_split lot rest r hr hlt]
        intro l hl
        rcases List.mem_cons.mp hl with rfl | hl
        · show 0 ≤ lot.remaining_vol - r
          linarith
        · exact hrest l hl

/-- One well-formed operation changes the total lot volume by exactly its
buy volume minus its sell volume minus its shrink removal, and keeps lot
volumes non-negative. -/
lemma applyOp_sum_delta (rec : Ledger) (op : Op)
    (hn : ∀ l ∈ rec.lots, 0 ≤ l.remaining_vol)
    (hok : match op with
           | Op.buy vol _ _ => 0 ≤ vol
           | Op.sell vol _ _ => 0 ≤ vol ∧ vol ≤ (total_remaining rec).1
           | Op.shrink target => 0 ≤ target) :
    (((applyOp rec op).lots.map Lot.remaining_vol).sum
        = (rec.lots.map Lot.remaining_vol).sum
          + ((applyOp rec op).buy_vol - rec.buy_vol)
          - ((applyOp rec op).sell_vol - rec.sell_vol)
          - shrunkOf rec op)
    ∧ ∀ l ∈ (applyOp rec op).lots, 0 ≤ l.remaining_vol := by
  cases op with
  | buy vol cost fee =>
    constructor
    · have h1 : ((applyOp rec (Op.buy vol cost fee)).lots.map Lot.remaining_vol).sum
          = (rec.lots.map Lot.remaining_vol).sum + vol := by
        simp [applyOp, applyBuy]
      have h2 : (applyOp rec (Op.buy vol cost fee)).buy_vol = rec.buy_vol + vol := rfl
      have h3 : (applyOp rec (Op.buy vol cost fee)).sell_vol = rec.sell_vol := rfl
      have h4 : shrunkOf rec (Op.buy vol cost fee) = 0 := rfl
      rw [h1, h2, h3, h4]
      ring
    · intro l hl
      simp only [applyOp, applyBuy, List.mem_append] at hl
      rcases hl with hl | hl
      · exact hn l hl
      · rw [List.mem_singleton] at hl
        subst hl
        exact hok
  | sell vol cost fee =>
    obtain ⟨hv, hle⟩ := hok
    have hle' : vol ≤ (rec.lots.map Lot.remaining_vol).sum := by
      simpa [total_remaining] using hle
    constructor
    · have h1 : ((applyOp rec (Op.sell vol cost fee)).lots.map Lot.remaining_vol).sum
          = (rec.lots.map Lot.remaining_vol).sum
            - min vol ((rec.lots.map Lot.remaining_vol).sum) :=
        fifoConsume_sum rec.lots vol _ hv hn
      have h2 : (applyOp rec (Op.sell vol cost fee)).buy_vol = rec.buy_vol := rfl
      have h3 : (applyOp rec (Op.sell vol cost fee)).sell_vol = rec.sell_vol + vol := rfl
      have h4 : shrunkOf rec (Op.sell vol cost fee) = 0 := rfl
      rw [h1, h2, h3, h4, min_eq_left hle']
      ring
    · intro l hl
      exact fifoConsume_nonneg rec.lots vol _ hn l hl
  | shrink target =>
    by_cases ht : target ≥ (total_remaining rec).1
    · have h0 : applyOp rec (Op.shrink target) = rec := by
        simp [applyOp, shrink_lots_fifo_to_target, ht]
      have h4 : shrunkOf rec (Op.shrink target) = 0 := by
        simp [shrunkOf, ht]
      constructor
      · rw [h0, h4]
        ring
      · rw [h0]
        exact hn
    · have htr : (total_remaining rec).1 = (rec.lots.map Lot.remaining_vol).sum := rfl
      have hlt : target < (rec.lots.map Lot.remaining_vol).sum := by
        rw [← htr]
        exact not_le.mp ht
      have htc : (0 : ℚ) ≤ (total_remaining rec).1 - target := by
        rw [htr]
        linarith
      have hlots : (applyOp rec (Op.shrink target)).lots
          = shrinkConsume rec.lots ((total_remaining rec).1 - target) := by
        simp [applyOp, shrink_lots_fifo_to_target, ht]
      constructor
      · have h1 := shrinkConsume_sum rec.lots ((total_remaining rec).1 - target) htc hn
        have hmin : min ((total_remaining rec).1 - target) ((rec.lots.map Lot.remaining_vol).sum)
            = (total_remaining rec).1 - target := by
          apply min_eq_left
          rw [htr]
          linarith
        have h2 : (applyOp rec (Op.shrink target)).buy_vol = rec.buy_vol :=
          (shrink_preserves_accounting rec target).2.2.2.2.1
        have h3 : (applyOp rec (Op.shrink target)).sell_vol = rec.sell_vol :=
          (shrink_preserves_accounting rec target).2.1
        have h4 : shrunkOf rec (Op.shrink target) = (total_remaining rec).1 - target := by
          simp [shrunkOf, ht]
        rw [hlots, h1, hmin, h2, h3, h4, htr]
        ring
      · intro l hl
        rw [hlots] at hl
        exact shrinkConsume_nonneg rec.lots _ hn l hl

/-- Volume conservation along a well-formed trace: the total lot volume
changes by buys minus sells minus shrink removals, and lot volumes stay
non-negative. -/
lemma applyOps_sum_invariant (ops : List Op) : ∀ (rec : Ledger),
    (∀ l ∈ rec.lots, 0 ≤ l.remaining_vol) → OpsOK rec ops →
    (((applyOps rec ops).lots.map Lot.remaining_vol).sum
        = (rec.lots.map Lot.remaining_vol).sum
          + ((applyOps rec ops).buy_vol - rec.buy_vol)
          - ((applyOps rec ops).sell_vol - rec.sell_vol)
          - totalShrunk rec ops)
    ∧ ∀ l ∈ (applyOps rec ops).lots, 0 ≤ l.remaining_vol := by
  induction ops with
  | nil =>
    intro rec hn _
    exact ⟨by simp [applyOps, totalShrunk], hn⟩
  | cons op ops ih =>
    intro rec hn hok
    obtain ⟨hop, htail⟩ := hok
    have hstep := applyOp_sum_delta rec op hn hop
    have hrest := ih (applyOp rec op) hstep.2 htail
    have hts : totalShrunk rec (op :: ops)
        = shrunkOf rec op + totalShrunk (applyOp rec op) ops := rfl
    have happ : applyOps rec (op :: ops) = applyOps (applyOp rec op) ops := rfl
    constructor
    · rw [happ, hts]
      have e1 := hstep.1
      have e2 := hrest.1
      linarith
    · rw [happ]
      exact hrest.2

/-- C4, counterexample: the claim as stated fails on the code.  A single
oversold sell (volume 1 into an empty ledger) leaves total remaining volume
0, while `buy_volume - sell_volume - shrunk = -1`. -/
theorem C4_volume_conservation_counterexample :
    ¬ (((applyOps emptyLedger [Op.sell 1 1 0]).lots.map Lot.remaining_vol).sum
        = (applyOps emptyLedger [Op.sell 1 1 0]).buy_vol
          - (applyOps emptyLedger [Op.sell 1 1 0]).sell_vol
          - totalShrunk emptyLedger [Op.sell 1 1 0]) := by
  norm_num [applyOps, applyOp, applySell, emptyLedger, fifoConsume, totalShrunk, shrunkOf,
    safe_div, INCLUDE_FEES_IN_COST]

/-- C4, amended: on every trace from the empty ledger whose buy and sell
volumes and shrink targets are non-negative and whose sells never exceed the
remaining lot volume at their point of application, the sum of
`remaining_volume` over the lots equals `buy_volume - sell_volume` minus the
total volume removed by shrinks.  (An oversold sell breaks the equality,
which is why the trace condition is required.) -/
theorem C4_volume_conservation_amended (ops : List Op) (hok : OpsOK emptyLedger ops) :
    ((applyOps emptyLedger ops).lots.map Lot.remaining_vol).sum
      = (applyOps emptyLedger ops).buy_vol - (applyOps emptyLedger ops).sell_vol
        - totalShrunk emptyLedger ops := by
  have h := (applyOps_sum_invariant ops emptyLedger (by simp [emptyLedger]) hok).1
  simpa [emptyLedger] using h

/-- Witness for C4 (amended) on a concrete buy/sell/shrink history. -/
theorem C4_volume_conservation_amended_witness :
    OpsOK emptyLedger [Op.buy 2 20 0, Op.sell 1 30 0, Op.shrink 0]
    ∧ ((applyOps emptyLedger [Op.buy 2 20 0, Op.sell 1 30 0, Op.shrink 0]).lots.map
        Lot.remaining_vol).sum
      = (applyOps emptyLedger [Op.buy 2 20 0, Op.sell 1 30 0, Op.shrink 0]).buy_vol
        - (applyOps emptyLedger [Op.buy 2 20 0, Op.sell 1 30 0, Op.shrink 0]).sell_vol
        - totalShrunk emptyLedger [Op.buy 2 20 0, Op.sell 1 30 0, Op.shrink 0] := by
  have hok : OpsOK emptyLedger [Op.buy 2 20 0, Op.sell 1 30 0, Op.shrink 0] := by
    norm_num [OpsOK, applyOp, applyBuy, applySell, fifoConsume, total_remaining, emptyLedger,
      safe_div, INCLUDE_FEES_IN_COST]
  exact ⟨hok, C4_volume_conservation_amended _ hok⟩

end Kraken
